import Mathlib

/-!
Verification of the selection / mutation / clipboard-interchange engine of the
proto-table grid editor.  Pure functions of the TypeScript sources are embedded
as Lean functions; React state hooks become explicit state-passing functions.
Cell values are embedded as `List Char` where character-level processing
matters (the clipboard codec) and as `String` elsewhere.
-/

namespace ProtoTable

/-- `Position` from `src/types/table.ts`: zero-based row/column pair. -/
structure Pos where
  row : Nat
  col : Nat
deriving DecidableEq, Repr

/-- `Selection` from `src/types/table.ts`: an anchor/active pair of positions.
The source field `end` is a Lean keyword, so it is named `stop` here. -/
structure Selection where
  start : Pos
  stop : Pos
deriving DecidableEq, Repr

/-! ## Clipboard codec

The final revision of `useClipboard` (the one exercised by its test suite,
with Excel-style quoting) is not among the surviving source snapshots; only
older revisions and its tests are.  The codec itself is therefore modelled
from the spec, while the selection-rectangle extraction around it follows the
surviving `copySelectedCells` source. -/

/-- Modelled from the spec: the line-ending normalization step of the missing
`formatCellValueForExcel` helper of the final `useClipboard` revision
(CRLF becomes LF, a lone CR becomes LF). -/
def normChars : List Char → List Char
  | [] => []
  | [c] => if c = '\r' then ['\n'] else [c]
  | c :: d :: rest =>
    if c = '\r' then
      if d = '\n' then '\n' :: normChars rest
      else '\n' :: normChars (d :: rest)
    else c :: normChars (d :: rest)

/-- Modelled from the spec: the trailing-newline stripping step of the missing
`formatCellValueForExcel` helper (trailing LFs of a cell value are dropped). -/
def stripTrailingLF (cs : List Char) : List Char :=
  (cs.reverse.dropWhile (fun c => c = '\n')).reverse

/-- The cleaned form of a cell value: normalize line endings, then strip
trailing newlines. -/
def cleanValue (cs : List Char) : List Char :=
  stripTrailingLF (normChars cs)

/-- A character that forces quoting in the interchange format. -/
def isSpecial (c : Char) : Bool :=
  c = '\n' || c = '\t' || c = '"'

/-- Whether a cleaned cell value must be wrapped in double quotes. -/
def needsQuoting (cs : List Char) : Bool :=
  cs.any isSpecial

/-- Double every double-quote character of a quoted field body. -/
def doubleQuotes (cs : List Char) : List Char :=
  cs.flatMap (fun c => if c = '"' then ['"', '"'] else [c])

/-- Modelled from the spec: the missing `formatCellValueForExcel` of the final
`useClipboard` revision.  Clean the value; if the cleaned value contains LF,
TAB or a double quote, wrap it in double quotes with inner quotes doubled,
otherwise emit it unchanged. -/
def formatCellValueForExcel (cs : List Char) : List Char :=
  let v := cleanValue cs
  if needsQuoting v then '"' :: (doubleQuotes v ++ ['"']) else v

/-- `rowData.join(sep)` of the source: fields separated by `sep`. -/
def joinSep (sep : List Char) : List (List Char) → List Char
  | [] => []
  | x :: xs => x ++ (xs.map (fun y => sep ++ y)).flatten

/-- One encoded row: TAB-joined fields followed by LF, as in the
`text += rowData.join(tab) + newline` loop of `copySelectedCells`. -/
def encodeRow (row : List (List Char)) : List Char :=
  joinSep ['\t'] (row.map formatCellValueForExcel) ++ ['\n']

/-- The full encoded text of a list of rows of cell values. -/
def encodeGrid (g : List (List (List Char))) : List Char :=
  (g.map encodeRow).flatten

/-- The value grid as seen by the codec: row `r`, column `c`, defaulting to
the empty value outside the grid. -/
def cellValue (g : List (List (List Char))) (r c : Nat) : List Char :=
  (g.getD r []).getD c []

/-- The rectangle of cell values covered by a selection, rows
`min..max` by columns `min..max` as computed in `copySelectedCells`. -/
def extractRect (g : List (List (List Char))) (sel : Selection) :
    List (List (List Char)) :=
  let minR := min sel.start.row sel.stop.row
  let maxR := max sel.start.row sel.stop.row
  let minC := min sel.start.col sel.stop.col
  let maxC := max sel.start.col sel.stop.col
  (List.range (maxR - minR + 1)).map (fun i =>
    (List.range (maxC - minC + 1)).map (fun j =>
      cellValue g (minR + i) (minC + j)))

/-- `copySelectedCells` of `useClipboard`: encode the selection rectangle,
row by row, each row TAB-joined and terminated by LF.  The rectangle
extraction follows the surviving source; the per-cell formatting is the
spec-modelled `formatCellValueForExcel`. -/
def copySelectedCells (g : List (List (List Char))) (sel : Selection) :
    List Char :=
  let minR := min sel.start.row sel.stop.row
  let maxR := max sel.start.row sel.stop.row
  let minC := min sel.start.col sel.stop.col
  let maxC := max sel.start.col sel.stop.col
  ((List.range (maxR - minR + 1)).map (fun i =>
    joinSep ['\t'] ((List.range (maxC - minC + 1)).map (fun j =>
      formatCellValueForExcel (cellValue g (minR + i) (minC + j)))) ++
        ['\n'])).flatten

/-- Modelled from the spec: the single-pass clipboard decoder of the missing
final `useClipboard` revision.  State: `inQ` (inside quotes), the current
field, the current row, the rows emitted so far.  Inside quotes a doubled
quote is unescaped to one quote, a lone quote leaves quote mode, and TAB/LF
are literal; outside quotes a quote enters quote mode, TAB ends the field and
LF ends the row.  At end of input any pending field/row is flushed. -/
def scan : Bool → List Char → List (List Char) → List (List (List Char)) →
    List Char → List (List (List Char))
  | _, f, r, acc, [] => if f = [] ∧ r = [] then acc else acc ++ [r ++ [f]]
  | inQ, f, r, acc, c :: rest =>
    if inQ then
      if c = '"' then
        match rest with
        | '"' :: rest2 => scan true (f ++ ['"']) r acc rest2
        | [] => scan false f r acc []
        | d :: rest2 => scan false f r acc (d :: rest2)
      else scan true (f ++ [c]) r acc rest
    else
      if c = '"' then scan true f r acc rest
      else if c = '\t' then scan false [] (r ++ [f]) acc rest
      else if c = '\n' then scan false [] [] (acc ++ [r ++ [f]]) rest
      else scan false (f ++ [c]) r acc rest

/-- Decode a clipboard text into rows of cell values. -/
def decodeChars (cs : List Char) : List (List (List Char)) :=
  scan false [] [] [] cs

/-! ## Paste-broadcast planner

The final `pasteToSelectedCells` (the broadcast/tiling version exercised by
the clipboard test suite) is also absent from the surviving snapshots, so the
planner is modelled from the spec. -/

/-- Top row of the normalized selection rectangle. -/
def selMinRow (s : Selection) : Nat := min s.start.row s.stop.row

/-- Bottom row of the normalized selection rectangle. -/
def selMaxRow (s : Selection) : Nat := max s.start.row s.stop.row

/-- Left column of the normalized selection rectangle. -/
def selMinCol (s : Selection) : Nat := min s.start.col s.stop.col

/-- Right column of the normalized selection rectangle. -/
def selMaxCol (s : Selection) : Nat := max s.start.col s.stop.col

/-- Height of the selection rectangle. -/
def selHeight (s : Selection) : Nat := selMaxRow s - selMinRow s + 1

/-- Width of the selection rectangle. -/
def selWidth (s : Selection) : Nat := selMaxCol s - selMinCol s + 1

/-- All positions of the selection rectangle, row-major, as in
`getSelectedCellPositions`. -/
def rectPositions (s : Selection) : List Pos :=
  (List.range (selHeight s)).flatMap (fun i =>
    (List.range (selWidth s)).map (fun j =>
      ⟨selMinRow s + i, selMinCol s + j⟩))

/-- A single planned paste write: target position and value. -/
structure PasteUpdate where
  pos : Pos
  val : List Char
deriving DecidableEq, Repr

/-- Clipboard cell `i,j` of the decoded rows, defaulting to empty. -/
def clipCell (clip : List (List (List Char))) (i j : Nat) : List Char :=
  (clip.getD i []).getD j []

/-- The maximum row width of the decoded clipboard rows. -/
def clipWidth (clip : List (List (List Char))) : Nat :=
  (clip.map List.length).foldl max 0

/-- 1:1 placement of the decoded rows with top-left corner at `anchor`. -/
def placeAt (clip : List (List (List Char))) (anchor : Pos) :
    List PasteUpdate :=
  (List.range clip.length).flatMap (fun i =>
    (List.range (clip.getD i []).length).map (fun j =>
      ⟨⟨anchor.row + i, anchor.col + j⟩, clipCell clip i j⟩))

/-- Modelled from the spec: the placement decision of the missing final
`pasteToSelectedCells`.  Classify the decoded clipboard as single cell,
single row, single column or rectangular; broadcast a single cell over a
multi-cell selection, repeat a single row downward over a taller selection,
repeat a single column rightward over a wider selection, and otherwise place
once at the selection's top-left corner. -/
def planPasteSel (clip : List (List (List Char))) (s : Selection) :
    List PasteUpdate :=
  let anchor : Pos := ⟨selMinRow s, selMinCol s⟩
  let r := clip.length
  let c := clipWidth clip
  if r = 1 ∧ c = 1 then
    if 1 < selHeight s ∨ 1 < selWidth s then
      (rectPositions s).map (fun p => ⟨p, clipCell clip 0 0⟩)
    else placeAt clip anchor
  else if r = 1 ∧ 1 < c then
    if 1 < selHeight s then
      (List.range (selHeight s)).flatMap (fun k =>
        (List.range (clip.getD 0 []).length).map (fun j =>
          ⟨⟨anchor.row + k, anchor.col + j⟩, clipCell clip 0 j⟩))
    else placeAt clip anchor
  else if c = 1 ∧ 1 < r then
    if 1 < selWidth s then
      (List.range (selWidth s)).flatMap (fun k =>
        (List.range clip.length).map (fun i =>
          ⟨⟨anchor.row + i, anchor.col + k⟩, clipCell clip i 0⟩))
    else placeAt clip anchor
  else placeAt clip anchor

/-- Modelled from the spec: the missing final `pasteToSelectedCells` placement
plan.  With a selection the anchor is the selection's top-left corner and the
broadcast rules of `planPasteSel` apply; without one the decoded rows are
placed 1:1 at the current cell. -/
def planPaste (clip : List (List (List Char))) (sel : Option Selection)
    (cur : Pos) : List PasteUpdate :=
  match sel with
  | some s => planPasteSel clip s
  | none => placeAt clip cur

/-! ## Grid mutation (`useTableData.ts`) -/

/-- A grid of cell values.  Cell bookkeeping fields (`isEditing`, `width`)
play no role in any claim, so a cell is embedded as its `value` string. -/
abbrev Grid := List (List String)

/-- Column count of a grid, `data[0].length` of the source. -/
def gridCols (g : Grid) : Nat := (g.headD []).length

/-- Membership of a position in the grid bounds, the
`row < data.length && col < data[0].length` check of the source. -/
def posInBounds (g : Grid) (p : Pos) : Prop :=
  p.row < g.length ∧ p.col < gridCols g

instance (g : Grid) (p : Pos) : Decidable (posInBounds g p) := by
  unfold posInBounds; infer_instance

/-- Write one cell value, `newData[row][col] = { ...old, value }`. -/
def writeCell (g : Grid) (p : Pos) (v : String) : Grid :=
  g.set p.row ((g.getD p.row []).set p.col v)

/-- A position/value pair of `updateMultipleCellsWithDifferentValues`. -/
structure CellUpdate where
  pos : Pos
  val : String
deriving DecidableEq, Repr

/-- `maxRow` of `updateMultipleCellsWithDifferentValues`: the largest row
referenced by the batch, starting from `-1`. -/
def maxRowRef (us : List CellUpdate) : Int :=
  us.foldl (fun m u => max m (u.pos.row : Int)) (-1)

/-- `maxCol` of `updateMultipleCellsWithDifferentValues`. -/
def maxColRef (us : List CellUpdate) : Int :=
  us.foldl (fun m u => max m (u.pos.col : Int)) (-1)

/-- Row growth of `updateMultipleCellsWithDifferentValues`: when `maxRow`
reaches past the last row, append `maxRow - length + 1` empty rows of the
current column count. -/
def growRowsTo (g : Grid) (maxRow : Int) : Grid :=
  if (g.length : Int) ≤ maxRow then
    g ++ List.replicate (maxRow - g.length + 1).toNat
      (List.replicate (gridCols g) "")
  else g

/-- Column growth of `updateMultipleCellsWithDifferentValues`: when `maxCol`
reaches past the last column, push `maxCol - width + 1` empty cells onto
every row. -/
def growColsTo (g : Grid) (maxCol : Int) : Grid :=
  if (gridCols g : Int) ≤ maxCol then
    g.map (fun row => row ++ List.replicate (maxCol - gridCols g + 1).toNat "")
  else g

/-- One bounds-checked write of the final `updates.forEach` loop. -/
def applyUpdate (g : Grid) (u : CellUpdate) : Grid :=
  if posInBounds g u.pos then writeCell g u.pos u.val else g

/-- `updateMultipleCellsWithDifferentValues` of `useTableData.ts`: compute the
largest referenced row and column, grow rows then columns to cover them, then
apply all bounds-checked writes. -/
def updateMultipleCellsWithDifferentValues (g : Grid) (us : List CellUpdate) :
    Grid :=
  let g1 := growRowsTo g (maxRowRef us)
  let g2 := growColsTo g1 (maxColRef us)
  us.foldl applyUpdate g2

/-! ## History (`useTableHistory`) -/

/-- The history cap of `useTableHistory` (`newHistory.length > 50`). -/
def historyCap : Nat := 50

/-- The history state of `useTableHistory`: the snapshot stack and the cursor.
Snapshot `actionType` and `timestamp` fields play no role in any claim. -/
structure HistState where
  hist : List Grid
  idx : Nat
deriving DecidableEq, Repr

/-- The initial history: a single seed entry holding the initial grid. -/
def initHistory (g : Grid) : HistState := ⟨[g], 0⟩

/-- `addHistory` of `useTableHistory`: drop entries after the cursor, append
the snapshot, evict the oldest entry when the stack exceeds the cap, and move
the cursor to the new top. -/
def addHistory (s : HistState) (g : Grid) : HistState :=
  let nh := s.hist.take (s.idx + 1) ++ [g]
  let nh2 := if historyCap < nh.length then nh.tail else nh
  ⟨nh2, nh2.length - 1⟩

/-- The state transition of `undo`: decrement the cursor unless it is at the
bottom. -/
def undoStep (s : HistState) : HistState :=
  if s.idx = 0 then s else ⟨s.hist, s.idx - 1⟩

/-- The snapshot returned by `undo`, `null` when the cursor is at the
bottom. -/
def undoResult (s : HistState) : Option Grid :=
  if s.idx = 0 then none else some (s.hist.getD (s.idx - 1) [])

/-- `canUndo` of `useTableHistory`. -/
def canUndo (s : HistState) : Bool := decide (0 < s.idx)

/-- `canRedo` of `useTableHistory`. -/
def canRedo (s : HistState) : Bool := decide (s.idx + 1 < s.hist.length)

/-- The snapshot the cursor points at. -/
def currentSnapshot (s : HistState) : Grid := s.hist.getD s.idx []

/-- Iterated `undo`. -/
def undoN : Nat → HistState → HistState
  | 0, s => s
  | n + 1, s => undoN n (undoStep s)

/-- Push a sequence of snapshots onto a fresh history seeded with `g0`. -/
def pushAll (g0 : Grid) (snaps : List Grid) : HistState :=
  snaps.foldl addHistory (initHistory g0)

/-- The last `n` elements of a list. -/
def lastN (n : Nat) (l : List α) : List α := l.drop (l.length - n)

/-! ## Mutation facade state (`useTableData`) -/

/-- The state owned by `useTableData`: the live grid and the history. -/
structure TableDataState where
  grid : Grid
  hist : HistState
deriving DecidableEq, Repr

/-- `useTableData` initialisation: live grid plus seeded history. -/
def initTableData (g : Grid) : TableDataState := ⟨g, initHistory g⟩

/-- `updateDataWithHistory`: set the new grid and push it onto the history. -/
def updateDataWithHistory (s : TableDataState) (g : Grid) : TableDataState :=
  ⟨g, addHistory s.hist g⟩

/-- `updateCell` of `useTableData.ts`: bounds-checked single-cell write; out
of bounds the whole call is a no-op and no history entry is pushed. -/
def updateCell (s : TableDataState) (r c : Nat) (v : String) :
    TableDataState :=
  if posInBounds s.grid ⟨r, c⟩ then
    updateDataWithHistory s (writeCell s.grid ⟨r, c⟩ v)
  else s

/-- `updateMultipleCells` of `useTableData.ts`: bounds-checked writes of one
value at many positions; the history push is unconditional. -/
def updateMultipleCells (s : TableDataState) (ps : List Pos) (v : String) :
    TableDataState :=
  updateDataWithHistory s
    (ps.foldl (fun g p => if posInBounds g p then writeCell g p v else g)
      s.grid)

/-! ## Heap model of snapshot aliasing

JavaScript arrays are reference values: `[...data]` copies only the outer
array, and `newData[r][c] = v` mutates the shared row array in place.  To
settle the snapshot-independence claim this aliasing is made explicit: rows
live in a heap, a grid is a list of row ids, and `JSON.parse(JSON.stringify)`
allocates fresh ids. -/

/-- The row heap: row id `i` is slot `i` of the store. -/
structure Heap where
  rows : List (List String)
deriving DecidableEq, Repr

/-- A grid value as JavaScript sees it: a list of row references. -/
structure GridRef where
  rowIds : List Nat
deriving DecidableEq, Repr

/-- Dereference one row. -/
def readRow (h : Heap) (id : Nat) : List String := h.rows.getD id []

/-- Dereference a whole grid. -/
def readGridRef (h : Heap) (g : GridRef) : List (List String) :=
  g.rowIds.map (readRow h)

/-- Allocate the given row contents at fresh ids (this is what the
`JSON.parse(JSON.stringify(data))` deep copy of `addHistory` does). -/
def allocGrid (h : Heap) (rows : List (List String)) : Heap × GridRef :=
  (⟨h.rows ++ rows⟩, ⟨List.range' h.rows.length rows.length⟩)

/-- The full `useTableData` + `useTableHistory` state with explicit row
references: the live grid reference, the history entries (each a grid
reference) and the cursor. -/
structure AliasState where
  heap : Heap
  dataRef : GridRef
  histRefs : List GridRef
  histIdx : Nat
deriving DecidableEq, Repr

/-- Initialisation: the initial grid is allocated once; the live state and
the seed history entry hold the same row references (the source stores
`initialData` in the seed entry without copying). -/
def initAliasState (g : List (List String)) : AliasState :=
  let hg := allocGrid ⟨[]⟩ g
  ⟨hg.1, hg.2, [hg.2], 0⟩

/-- `addHistory` on the heap model: deep-copy the grid to fresh rows, drop
entries after the cursor, append, evict over the cap. -/
def aliasAddHistory (s : AliasState) (g : GridRef) : AliasState :=
  let hg := allocGrid s.heap (readGridRef s.heap g)
  let nh := s.histRefs.take (s.histIdx + 1) ++ [hg.2]
  let nh2 := if historyCap < nh.length then nh.tail else nh
  ⟨hg.1, g, nh2, nh2.length - 1⟩

/-- `updateCell` on the heap model: `[...data]` copies only the list of row
ids, then `newData[r][c] = v` overwrites slot `c` of the shared row array in
the heap; finally the new grid is pushed onto the history. -/
def aliasUpdateCell (s : AliasState) (r c : Nat) (v : String) : AliasState :=
  if r < s.dataRef.rowIds.length ∧
      c < (readRow s.heap (s.dataRef.rowIds.getD 0 0)).length then
    let id := s.dataRef.rowIds.getD r 0
    let heap2 : Heap := ⟨s.heap.rows.set id ((readRow s.heap id).set c v)⟩
    aliasAddHistory ⟨heap2, s.dataRef, s.histRefs, s.histIdx⟩
      ⟨s.dataRef.rowIds⟩
  else s

/-- `undoAction` on the heap model: `setData(history[newIndex].data)` makes
the live grid alias the stored snapshot's row references. -/
def aliasUndo (s : AliasState) : AliasState :=
  if s.histIdx = 0 then s
  else
    ⟨s.heap, s.histRefs.getD (s.histIdx - 1) ⟨[]⟩, s.histRefs, s.histIdx - 1⟩

/-! ## Selection (`useTableSelection`, final revision) -/

/-- Arrow-key directions of `moveSelection`. -/
inductive Direction
  | up
  | down
  | left
  | right
deriving DecidableEq, Repr

/-- The selection state of `useTableSelection`. -/
structure SelState where
  currentCell : Option Pos
  selection : Option Selection
  isShiftPressed : Bool
  selectionAnchor : Option Pos
  isDragging : Bool
  dragStart : Option Pos
deriving DecidableEq, Repr

/-- The initial selection state: everything empty. -/
def initSelState : SelState := ⟨none, none, false, none, false, none⟩

/-- `selectCell` of `useTableSelection`: set the current cell; extend from
the anchor when shift is held and an anchor exists, otherwise collapse to a
single-cell selection anchored at the new position.  There is no bounds
check. -/
def selectCell (s : SelState) (r c : Nat) : SelState :=
  let p : Pos := ⟨r, c⟩
  match s.isShiftPressed, s.selectionAnchor with
  | true, some a =>
    { s with currentCell := some p, selection := some ⟨a, p⟩ }
  | _, _ =>
    { s with currentCell := some p, selectionAnchor := some p,
             selection := some ⟨p, p⟩ }

/-- `setShiftKey` of `useTableSelection`. -/
def setShiftKey (s : SelState) (pressed : Bool) : SelState :=
  { s with isShiftPressed := pressed }

/-- `handleMouseDown` of `useTableSelection`: like `selectCell` but keyed on
the event's own shift flag, and it opens a drag session.  No bounds check. -/
def handleMouseDown (s : SelState) (r c : Nat) (shiftKey : Bool) : SelState :=
  let p : Pos := ⟨r, c⟩
  match shiftKey, s.selectionAnchor with
  | true, some a =>
    { s with currentCell := some p, selection := some ⟨a, p⟩,
             dragStart := some p, isDragging := true }
  | _, _ =>
    { s with dragStart := some p, isDragging := true, currentCell := some p,
             selectionAnchor := some p, selection := some ⟨p, p⟩ }

/-- `handleMouseMove` of `useTableSelection` (final revision): while a drag
session is open, move the current cell and extend the selection from the drag
start.  No bounds check. -/
def handleMouseMove (s : SelState) (r c : Nat) : SelState :=
  match s.isDragging, s.dragStart with
  | true, some d =>
    { s with currentCell := some ⟨r, c⟩, selection := some ⟨d, ⟨r, c⟩⟩ }
  | _, _ => s

/-- `handleMouseUp` of `useTableSelection`. -/
def handleMouseUp (s : SelState) : SelState :=
  { s with isDragging := false, dragStart := none }

/-- `moveSelection` of `useTableSelection` (final revision) over a
`rows × cols` grid: clamp the current cell one step in the given direction;
a move that stays put is a no-op; with shift held and an anchor the selection
extends from the anchor, otherwise the move collapses the selection via
`selectCell`. -/
def moveSelection (rows cols : Nat) (s : SelState) (dir : Direction) :
    SelState :=
  match s.currentCell with
  | none => selectCell s 0 0
  | some p =>
    let newRow :=
      match dir with
      | .up => p.row - 1
      | .down => min (rows - 1) (p.row + 1)
      | _ => p.row
    let newCol :=
      match dir with
      | .left => p.col - 1
      | .right => min (cols - 1) (p.col + 1)
      | _ => p.col
    if newRow = p.row ∧ newCol = p.col then s
    else
      match s.isShiftPressed, s.selectionAnchor with
      | true, some a =>
        { s with currentCell := some ⟨newRow, newCol⟩,
                 selection := some ⟨a, ⟨newRow, newCol⟩⟩ }
      | _, _ => selectCell s newRow newCol

/-! ## Helper lemmas -/

theorem normChars_no_cr (cs : List Char) : '\r' ∉ normChars cs := by
  induction cs using normChars.induct <;> simp_all [normChars, eq_comm]

theorem mem_of_mem_dropWhile {α} (p : α → Bool) {x : α} :
    ∀ l : List α, x ∈ List.dropWhile p l → x ∈ l := by
  intro l
  induction l with
  | nil => simp
  | cons a t ih =>
    rw [List.dropWhile]
    intro h
    split at h
    · exact List.mem_cons_of_mem a (ih h)
    · exact h

theorem mem_stripTrailingLF {x : Char} {l : List Char}
    (h : x ∈ stripTrailingLF l) : x ∈ l := by
  unfold stripTrailingLF at h
  rw [List.mem_reverse] at h
  exact List.mem_reverse.mp (mem_of_mem_dropWhile _ _ h)

theorem head_dropWhile_eol :
    ∀ l : List Char,
      (List.dropWhile (fun c => c = '\n') l).head? ≠ some '\n' := by
  intro l
  induction l with
  | nil => simp
  | cons a t ih =>
    rw [List.dropWhile]
    split
    · exact ih
    · simp_all

theorem stripTrailingLF_getLast (l : List Char) :
    (stripTrailingLF l).getLast? ≠ some '\n' := by
  unfold stripTrailingLF
  rw [List.getLast?_reverse]
  exact head_dropWhile_eol _

theorem needsQuoting_iff (cs : List Char) :
    needsQuoting cs = true ↔ ('\n' ∈ cs ∨ '\t' ∈ cs ∨ '"' ∈ cs) := by
  simp only [needsQuoting, isSpecial, List.any_eq_true, Bool.or_eq_true,
    decide_eq_true_eq]
  constructor
  · rintro ⟨c, hc, (h | h) | h⟩ <;> subst h <;> tauto
  · rintro (h | h | h)
    · exact ⟨_, h, Or.inl (Or.inl rfl)⟩
    · exact ⟨_, h, Or.inl (Or.inr rfl)⟩
    · exact ⟨_, h, Or.inr rfl⟩

theorem encodeGrid_cons (r : List (List Char))
    (rest : List (List (List Char))) :
    encodeGrid (r :: rest) = encodeRow r ++ encodeGrid rest := by
  simp [encodeGrid]

theorem encodeGrid_trailing (rows : List (List (List Char)))
    (hne : rows ≠ []) : ∃ pre, encodeGrid rows = pre ++ ['\n'] := by
  induction rows with
  | nil => exact absurd rfl hne
  | cons r rest ih =>
    cases rest with
    | nil =>
      exact ⟨joinSep ['\t'] (r.map formatCellValueForExcel),
        by simp [encodeGrid, encodeRow]⟩
    | cons r2 rest2 =>
      obtain ⟨pre, hp⟩ := ih (by simp)
      exact ⟨encodeRow r ++ pre, by rw [encodeGrid_cons, hp, List.append_assoc]⟩

theorem getD_eq_getElem_of_lt {α} (l : List α) (n : Nat) (d : α)
    (h : n < l.length) : l.getD n d = l[n] := by
  simp [List.getD_eq_getElem?_getD, List.getElem?_eq_getElem h]

theorem getD_drop_zero {α} (l : List α) (m : Nat) (d : α) :
    (l.drop m).getD 0 d = l.getD m d := by
  simp [List.getD_eq_getElem?_getD, List.getElem?_drop]

theorem getD_last_append {α} (l : List α) (x d : α) :
    (l ++ [x]).getD l.length d = x := by
  have h : l.length < (l ++ [x]).length := by simp
  rw [getD_eq_getElem_of_lt _ _ _ h]
  rw [List.getElem_append_right (le_refl l.length)]
  simp

/-- The general shape of one `addHistory` step: forward entries are dropped,
the snapshot is appended, and the oldest entry is evicted over the cap. -/
theorem addHistory_general (s : HistState) (g : Grid)
    (hidx : s.idx < s.hist.length) (hlen : s.hist.length ≤ historyCap) :
    (addHistory s g).hist =
      lastN historyCap (s.hist.take (s.idx + 1) ++ [g]) ∧
    (addHistory s g).hist.length = min (s.idx + 2) historyCap ∧
    (addHistory s g).idx = (addHistory s g).hist.length - 1 ∧
    (addHistory s g).hist ≠ [] ∧
    (addHistory s g).hist.length ≤ historyCap ∧
    currentSnapshot (addHistory s g) = g := by
  have htake : (s.hist.take (s.idx + 1)).length = s.idx + 1 := by
    rw [List.length_take]
    omega
  have hcap : (2 : Nat) ≤ historyCap := by decide
  have hidxcap : s.idx + 1 ≤ historyCap := by omega
  unfold addHistory lastN currentSnapshot
  dsimp only
  split
  · rename_i hover
    rw [List.length_append, htake] at hover
    have hid : s.idx + 1 = historyCap := by
      simp only [List.length_cons, List.length_nil] at hover
      omega
    have htail : (s.hist.take (s.idx + 1) ++ [g]).tail =
        (s.hist.take (s.idx + 1)).tail ++ [g] := by
      cases htk : s.hist.take (s.idx + 1) with
      | nil => rw [htk] at htake; simp at htake
      | cons a t => simp
    have hlentail : ((s.hist.take (s.idx + 1) ++ [g]).tail).length =
        historyCap := by
      rw [List.length_tail, List.length_append, htake]
      simp only [List.length_cons, List.length_nil]
      omega
    refine ⟨?_, ?_, rfl, ?_, ?_, ?_⟩
    · rw [List.length_append, htake]
      have hdrop1 : s.idx + 1 + [g].length - historyCap = 1 := by
        simp only [List.length_cons, List.length_nil]
        omega
      rw [hdrop1, List.drop_one]
    · rw [hlentail]
      omega
    · apply List.ne_nil_of_length_pos
      rw [hlentail]
      omega
    · rw [hlentail]
    · rw [hlentail, htail]
      have hlt : ((s.hist.take (s.idx + 1)).tail).length = historyCap - 1 := by
        rw [List.length_tail, htake]
        omega
      rw [show historyCap - 1 = ((s.hist.take (s.idx + 1)).tail).length by
        rw [hlt]]
      exact getD_last_append _ _ _
  · rename_i hover
    rw [List.length_append, htake] at hover
    simp only [List.length_cons, List.length_nil] at hover
    refine ⟨?_, ?_, rfl, by simp, ?_, ?_⟩
    · rw [List.length_append, htake]
      have hdrop0 : s.idx + 1 + [g].length - historyCap = 0 := by
        simp only [List.length_cons, List.length_nil]
        omega
      rw [hdrop0, List.drop_zero]
    · rw [List.length_append, htake]
      simp only [List.length_cons, List.length_nil]
      omega
    · rw [List.length_append, htake]
      simp only [List.length_cons, List.length_nil]
      omega
    · rw [List.length_append, htake]
      have : s.idx + 1 + [g].length - 1 = (s.hist.take (s.idx + 1)).length := by
        rw [htake]
        simp
      rw [this]
      exact getD_last_append _ _ _

theorem foldl_write_oob (v : String) :
    ∀ (ps : List Pos) (g : Grid), (∀ p ∈ ps, ¬ posInBounds g p) →
      ps.foldl (fun g p => if posInBounds g p then writeCell g p v else g) g
        = g := by
  intro ps
  induction ps with
  | nil => intro g _; rfl
  | cons p t ih =>
    intro g h
    have hp : ¬ posInBounds g p := h p (List.mem_cons_self p t)
    rw [List.foldl_cons, if_neg hp]
    exact ih g (fun q hq => h q (List.mem_cons_of_mem p hq))

/-! ## Claim theorems -/

/-- Claim C1: the clipboard encoding of a rectangular range cleans each cell
value (CRLF/CR normalized to LF, trailing newlines stripped), quotes a field
with doubled inner quotes exactly when the cleaned value contains LF, TAB or
a double quote and emits it unescaped otherwise, joins cells with TAB, rows
with LF, and ends with a trailing LF. -/
theorem claim_C1 (g : List (List (List Char))) (sel : Selection)
    (v : List Char) :
    copySelectedCells g sel = encodeGrid (extractRect g sel) ∧
    '\r' ∉ cleanValue v ∧
    (cleanValue v).getLast? ≠ some '\n' ∧
    (formatCellValueForExcel v = '"' :: (doubleQuotes (cleanValue v) ++ ['"'])
      ↔ ('\n' ∈ cleanValue v ∨ '\t' ∈ cleanValue v ∨ '"' ∈ cleanValue v)) ∧
    (('\n' ∉ cleanValue v ∧ '\t' ∉ cleanValue v ∧ '"' ∉ cleanValue v) →
      formatCellValueForExcel v = cleanValue v) ∧
    (copySelectedCells g sel).getLast? = some '\n' := by
  have hcopy : copySelectedCells g sel = encodeGrid (extractRect g sel) := by
    simp only [copySelectedCells, encodeGrid, extractRect, encodeRow,
      List.map_map, Function.comp_def]
  have hnocr : '\r' ∉ cleanValue v := fun h =>
    normChars_no_cr v (mem_stripTrailingLF h)
  have hlast := stripTrailingLF_getLast (normChars v)
  have hiff : formatCellValueForExcel v =
      '"' :: (doubleQuotes (cleanValue v) ++ ['"']) ↔
      ('\n' ∈ cleanValue v ∨ '\t' ∈ cleanValue v ∨ '"' ∈ cleanValue v) := by
    constructor
    · intro h
      by_cases hq : needsQuoting (cleanValue v) = true
      · exact (needsQuoting_iff _).mp hq
      · have hq' : needsQuoting (cleanValue v) = false := by
          cases hnq : needsQuoting (cleanValue v)
          · rfl
          · exact absurd hnq hq
        have hfmt : formatCellValueForExcel v = cleanValue v := by
          simp [formatCellValueForExcel, hq']
        rw [hfmt] at h
        refine Or.inr (Or.inr ?_)
        rw [h]
        exact List.mem_cons_self _ _
    · intro h
      have hq := (needsQuoting_iff (cleanValue v)).mpr h
      simp [formatCellValueForExcel, hq]
  have hplain : ('\n' ∉ cleanValue v ∧ '\t' ∉ cleanValue v ∧
      '"' ∉ cleanValue v) → formatCellValueForExcel v = cleanValue v := by
    intro h
    have hq : needsQuoting (cleanValue v) = false := by
      rw [← Bool.not_eq_true, needsQuoting_iff]
      tauto
    simp [formatCellValueForExcel, hq]
  have htrail : (copySelectedCells g sel).getLast? = some '\n' := by
    rw [hcopy]
    obtain ⟨pre, hp⟩ := encodeGrid_trailing (extractRect g sel)
      (by simp [extractRect, List.range_succ])
    rw [hp, List.getLast?_concat]
  exact ⟨hcopy, hnocr, hlast, hiff, hplain, htrail⟩

/-- Claim C1 witness: the theorem applied at a one-cell range holding
`A\r\nB1`, whose field is quoted after CRLF normalization. -/
theorem claim_C1_witness :
    copySelectedCells [[['A', '\r', '\n', 'B']]]
        ⟨⟨0, 0⟩, ⟨0, 0⟩⟩ =
      encodeGrid (extractRect [[['A', '\r', '\n', 'B']]] ⟨⟨0, 0⟩, ⟨0, 0⟩⟩) ∧
    formatCellValueForExcel ['A', '\r', '\n', 'B'] =
      '"' :: (doubleQuotes (cleanValue ['A', '\r', '\n', 'B']) ++ ['"']) :=
  ⟨(claim_C1 [[['A', '\r', '\n', 'B']]] ⟨⟨0, 0⟩, ⟨0, 0⟩⟩ []).1,
    ((claim_C1 [[['A', '\r', '\n', 'B']]] ⟨⟨0, 0⟩, ⟨0, 0⟩⟩
      ['A', '\r', '\n', 'B']).2.2.2.1).mpr (by decide)⟩

/-- Claim C2: the decoder honors quote delimiters — inside quotes a doubled
double quote unescapes to one, a lone double quote toggles quote mode, and
TAB/LF are literal content; decoding a quoted field with an embedded newline
followed by TAB and `B1` yields one row of exactly two fields with the
newline preserved. -/
theorem claim_C2 :
    (∀ (f : List Char) (r : List (List Char)) (acc : List (List (List Char)))
        (rest : List Char),
      scan true f r acc ('"' :: '"' :: rest) = scan true (f ++ ['"']) r acc rest) ∧
    (∀ (f : List Char) (r : List (List Char)) (acc : List (List (List Char)))
        (rest : List Char), rest.head? ≠ some '"' →
      scan true f r acc ('"' :: rest) = scan false f r acc rest) ∧
    (∀ (f : List Char) (r : List (List Char)) (acc : List (List (List Char)))
        (rest : List Char) (c : Char), c = '\t' ∨ c = '\n' →
      scan true f r acc (c :: rest) = scan true (f ++ [c]) r acc rest) ∧
    (∀ (f : List Char) (r : List (List Char)) (acc : List (List (List Char)))
        (rest : List Char),
      scan false f r acc ('"' :: rest) = scan true f r acc rest) ∧
    decodeChars ['"', 'X', '1', '\n', 'Y', '1', '"', '\t', 'B', '1'] =
      [[['X', '1', '\n', 'Y', '1'], ['B', '1']]] := by
  refine ⟨?_, ?_, ?_, ?_, by decide⟩
  · intro f r acc rest
    rw [scan]
    simp
  · intro f r acc rest h
    cases rest with
    | nil =>
      conv_lhs => rw [scan]
      simp
    | cons d rest2 =>
      have hd : d ≠ '"' := by simpa using h
      rw [scan]
      simp only [if_pos rfl]
      split
      · rename_i heq
        simp_all
      · rename_i heq
        simp_all
      · exact hd
  · intro f r acc rest c hc
    have h : c ≠ '"' := by rcases hc with h | h <;> subst h <;> decide
    rw [scan.eq_def]
    simp [h]
  · intro f r acc rest
    rw [scan.eq_def]
    simp

/-- Claim C2 witness: the scanner equations applied at concrete inputs. -/
theorem claim_C2_witness :
    scan true ['a'] [] [] ('"' :: ['\t', 'b']) = scan false ['a'] [] [] ['\t', 'b'] ∧
    scan true ['a'] [] [] ('\n' :: ['x']) = scan true ['a', '\n'] [] [] ['x'] :=
  ⟨claim_C2.2.1 ['a'] [] [] ['\t', 'b'] (by decide),
    claim_C2.2.2.1 ['a'] [] [] ['x'] '\n' (Or.inr rfl)⟩

/-- Positions of the selection rectangle are exactly the in-rectangle
positions. -/
theorem mem_rectPositions (s : Selection) (p : Pos) :
    p ∈ rectPositions s ↔
      (selMinRow s ≤ p.row ∧ p.row ≤ selMaxRow s ∧
       selMinCol s ≤ p.col ∧ p.col ≤ selMaxCol s) := by
  have hr : selMinRow s ≤ selMaxRow s :=
    le_trans (Nat.min_le_left _ _) (Nat.le_max_left _ _)
  have hc : selMinCol s ≤ selMaxCol s :=
    le_trans (Nat.min_le_left _ _) (Nat.le_max_left _ _)
  simp only [rectPositions, List.mem_flatMap, List.mem_map, List.mem_range,
    selHeight, selWidth]
  constructor
  · rintro ⟨i, hi, j, hj, rfl⟩
    dsimp only
    omega
  · rintro ⟨h1, h2, h3, h4⟩
    refine ⟨p.row - selMinRow s, by omega, p.col - selMinCol s, by omega, ?_⟩
    cases p
    simp only [Pos.mk.injEq]
    dsimp only at h1 h2 h3 h4
    omega

/-- Claim C3: a clipboard payload decoding to a single 1×1 cell pasted over a
multi-cell selection is broadcast to every cell of the selection rectangle,
not only the anchor. -/
theorem claim_C3 (text : List Char) (s : Selection) (cur : Pos)
    (v : List Char) (hdec : decodeChars text = [[v]])
    (hmulti : 1 < selHeight s ∨ 1 < selWidth s) :
    planPaste (decodeChars text) (some s) cur =
      (rectPositions s).map (fun p => ⟨p, v⟩) ∧
    ∀ p : Pos, selMinRow s ≤ p.row → p.row ≤ selMaxRow s →
      selMinCol s ≤ p.col → p.col ≤ selMaxCol s →
      (⟨p, v⟩ : PasteUpdate) ∈ planPaste (decodeChars text) (some s) cur := by
  have hplan : planPaste (decodeChars text) (some s) cur =
      (rectPositions s).map (fun p => ⟨p, v⟩) := by
    rw [hdec]
    have h1 : (1 : Nat) < selHeight s ∨ 1 < selWidth s := hmulti
    simp [planPaste, planPasteSel, clipWidth, clipCell, h1]
  refine ⟨hplan, fun p h1 h2 h3 h4 => ?_⟩
  rw [hplan]
  exact List.mem_map.mpr ⟨p, (mem_rectPositions s p).mpr ⟨h1, h2, h3, h4⟩, rfl⟩

/-- Claim C3 witness: pasting the single-cell payload `Z` into the 2×2
selection broadcasts `Z` to all four cells. -/
theorem claim_C3_witness :
    planPaste (decodeChars ['Z']) (some ⟨⟨0, 0⟩, ⟨1, 1⟩⟩) ⟨0, 0⟩ =
      (rectPositions ⟨⟨0, 0⟩, ⟨1, 1⟩⟩).map (fun p => ⟨p, ['Z']⟩) :=
  (claim_C3 ['Z'] ⟨⟨0, 0⟩, ⟨1, 1⟩⟩ ⟨0, 0⟩ ['Z'] (by decide) (by decide)).1

/-- Claim C6 (code bug): history snapshots are not independent deep copies.
The seed entry aliases the initial grid's row arrays, and `updateCell`
mutates shared rows in place after a shallow `[...data]` copy; a single
update after initialisation rewrites the seed snapshot, and after an undo a
further update rewrites the restored stored snapshot as well. -/
theorem claim_C6 :
    readGridRef (initAliasState [["a"]]).heap
      ((initAliasState [["a"]]).histRefs.getD 0 ⟨[]⟩) = [["a"]] ∧
    readGridRef (aliasUpdateCell (initAliasState [["a"]]) 0 0 "b").heap
      ((aliasUpdateCell (initAliasState [["a"]]) 0 0 "b").histRefs.getD 0
        ⟨[]⟩) = [["b"]] ∧
    readGridRef
      (aliasUpdateCell (aliasUndo (aliasUpdateCell (initAliasState [["a"]])
        0 0 "b")) 0 0 "c").heap
      ((aliasUpdateCell (aliasUndo (aliasUpdateCell (initAliasState [["a"]])
        0 0 "b")) 0 0 "c").histRefs.getD 0 ⟨[]⟩) = [["c"]] := by
  decide

/-- Claim C9 counterexample: on a 2×2 grid the position `(5,5)` is out of
bounds, yet `selectCell` accepts it and rewrites the selection instead of
ignoring it. -/
theorem claim_C9_counterexample :
    ¬ posInBounds [["a", "b"], ["c", "d"]] ⟨5, 5⟩ ∧
    (selectCell (selectCell initSelState 0 0) 5 5).selection =
      some ⟨⟨5, 5⟩, ⟨5, 5⟩⟩ ∧
    (selectCell (selectCell initSelState 0 0) 5 5).selection ≠
      (selectCell initSelState 0 0).selection := by
  decide

/-- Claim C9 (amended): position-taking selection operations perform no
bounds validation — `selectCell`, `handleMouseDown` and `handleMouseMove`
accept any position, in bounds or not, and update the selection state with
it; only `moveSelection` clamps, keeping an in-bounds current cell in bounds
while moving it at most one step. -/
theorem claim_C9 (s : SelState) (r c : Nat) (sk : Bool) (rows cols : Nat)
    (q : Pos) (dir : Direction) :
    (selectCell s r c).currentCell = some ⟨r, c⟩ ∧
    (handleMouseDown s r c sk).currentCell = some ⟨r, c⟩ ∧
    (s.isDragging = true → ∀ d, s.dragStart = some d →
      (handleMouseMove s r c).currentCell = some ⟨r, c⟩ ∧
      (handleMouseMove s r c).selection = some ⟨d, ⟨r, c⟩⟩) ∧
    (s.currentCell = some q → q.row < rows → q.col < cols →
      ∃ q' : Pos, (moveSelection rows cols s dir).currentCell = some q' ∧
        q'.row < rows ∧ q'.col < cols ∧
        (q'.row = q.row ∨ q'.row = q.row + 1 ∨ q'.row + 1 = q.row) ∧
        (q'.col = q.col ∨ q'.col = q.col + 1 ∨ q'.col + 1 = q.col)) := by
  refine ⟨?_, ?_, ?_, ?_⟩
  · unfold selectCell
    rcases s.isShiftPressed with _ | _ <;> rcases s.selectionAnchor with _ | a
      <;> rfl
  · unfold handleMouseDown
    rcases sk with _ | _ <;> rcases s.selectionAnchor with _ | a <;> rfl
  · intro hd d hds
    unfold handleMouseMove
    rw [hd, hds]
    exact ⟨rfl, rfl⟩
  · intro hcur hr hc
    have hgoal : ∀ nr nc : Nat,
        (nr = q.row ∨ nr = q.row + 1 ∨ nr + 1 = q.row) →
        (nc = q.col ∨ nc = q.col + 1 ∨ nc + 1 = q.col) →
        nr < rows → nc < cols →
        ∃ q' : Pos,
          (match s.isShiftPressed, s.selectionAnchor with
            | true, some a =>
              { s with currentCell := some ⟨nr, nc⟩,
                       selection := some ⟨a, ⟨nr, nc⟩⟩ }
            | _, _ => selectCell s nr nc).currentCell = some q' ∧
          q'.row < rows ∧ q'.col < cols ∧
          (q'.row = q.row ∨ q'.row = q.row + 1 ∨ q'.row + 1 = q.row) ∧
          (q'.col = q.col ∨ q'.col = q.col + 1 ∨ q'.col + 1 = q.col) := by
      intro nr nc h1 h2 h3 h4
      refine ⟨⟨nr, nc⟩, ?_, h3, h4, h1, h2⟩
      cases hs : s.isShiftPressed <;> cases ha : s.selectionAnchor <;>
        simp [selectCell, hs, ha]
    unfold moveSelection
    rw [hcur]
    dsimp only
    split
    · exact ⟨q, by rw [hcur], hr, hc, Or.inl rfl, Or.inl rfl⟩
    · cases dir <;> dsimp only <;>
        exact hgoal _ _ (by omega) (by omega) (by omega) (by omega)

/-- Claim C8: after a plain `selectCell p`, any sequence of shift-extended
moves keeps the selection anchored at `p`: the anchor field and the
selection's `start` both stay `p`. -/
theorem claim_C8 (s : SelState) (p : Pos) (rows cols : Nat)
    (dirs : List Direction) (hshift : s.isShiftPressed = false)
    (hrow : p.row < rows) (hcol : p.col < cols) :
    (dirs.foldl (moveSelection rows cols)
      (setShiftKey (selectCell s p.row p.col) true)).selectionAnchor =
      some p ∧
    ∃ e, (dirs.foldl (moveSelection rows cols)
      (setShiftKey (selectCell s p.row p.col) true)).selection =
      some ⟨p, e⟩ := by
  have hinv : ∀ (l : List Direction) (st : SelState),
      st.isShiftPressed = true → st.selectionAnchor = some p →
      (∃ c, st.currentCell = some c) →
      (∃ e, st.selection = some ⟨p, e⟩) →
      (l.foldl (moveSelection rows cols) st).isShiftPressed = true ∧
      (l.foldl (moveSelection rows cols) st).selectionAnchor = some p ∧
      (∃ c, (l.foldl (moveSelection rows cols) st).currentCell = some c) ∧
      (∃ e, (l.foldl (moveSelection rows cols) st).selection =
        some ⟨p, e⟩) := by
    intro l
    induction l with
    | nil =>
      intro st h1 h2 h3 h4
      exact ⟨h1, h2, h3, h4⟩
    | cons d t ih =>
      intro st h1 h2 h3 h4
      rw [List.foldl_cons]
      have hstep : (moveSelection rows cols st d).isShiftPressed = true ∧
          (moveSelection rows cols st d).selectionAnchor = some p ∧
          (∃ c, (moveSelection rows cols st d).currentCell = some c) ∧
          (∃ e, (moveSelection rows cols st d).selection = some ⟨p, e⟩) := by
        obtain ⟨c, hc⟩ := h3
        obtain ⟨e, he⟩ := h4
        unfold moveSelection
        rw [hc]
        dsimp only
        split
        · exact ⟨h1, h2, ⟨c, hc⟩, ⟨e, he⟩⟩
        · rw [h1, h2]
          dsimp only
          exact ⟨rfl, rfl, ⟨_, rfl⟩, ⟨_, rfl⟩⟩
      exact ih _ hstep.1 hstep.2.1 hstep.2.2.1 hstep.2.2.2
  have hbase := hinv dirs (setShiftKey (selectCell s p.row p.col) true)
    (by simp [setShiftKey])
    (by cases p; simp [setShiftKey, selectCell, hshift])
    ⟨⟨p.row, p.col⟩, by simp [setShiftKey, selectCell, hshift]⟩
    ⟨⟨p.row, p.col⟩, by cases p; simp [setShiftKey, selectCell, hshift]⟩
  exact ⟨hbase.2.1, hbase.2.2.2⟩

/-- Claim C8 witness: extend-move right then down after anchoring at `(0,0)`
on a 3×3 grid keeps the selection start at `(0,0)`. -/
theorem claim_C8_witness :
    ([Direction.right, Direction.down].foldl (moveSelection 3 3)
      (setShiftKey (selectCell initSelState 0 0) true)).selectionAnchor =
      some ⟨0, 0⟩ ∧
    ∃ e, ([Direction.right, Direction.down].foldl (moveSelection 3 3)
      (setShiftKey (selectCell initSelState 0 0) true)).selection =
      some ⟨⟨0, 0⟩, e⟩ :=
  claim_C8 initSelState ⟨0, 0⟩ 3 3 [Direction.right, Direction.down]
    rfl (by decide) (by decide)

/-- Claim C9 witness: the amended theorem at a concrete state — a move down
from `(0,0)` on a 2×2 grid stays in bounds. -/
theorem claim_C9_witness :
    ∃ q' : Pos,
      (moveSelection 2 2 (selectCell initSelState 0 0)
        Direction.down).currentCell = some q' ∧
      q'.row < 2 ∧ q'.col < 2 ∧
      (q'.row = 0 ∨ q'.row = 0 + 1 ∨ q'.row + 1 = 0) ∧
      (q'.col = 0 ∨ q'.col = 0 + 1 ∨ q'.col + 1 = 0) :=
  (claim_C9 (selectCell initSelState 0 0) 0 0 false 2 2 ⟨0, 0⟩
    Direction.down).2.2.2 (by decide) (by decide) (by decide)

/-- Claim C10: `updateMultipleCells` pushes exactly one history entry per
call even when the position list is empty or entirely out of bounds — the
stored snapshot then equals the previous grid and the cursor still advances
to the new top — whereas `updateCell` at an out-of-bounds position pushes
nothing and leaves the whole state unchanged. -/
theorem claim_C10 (s : TableDataState) (ps : List Pos) (v : String)
    (hidx : s.hist.idx < s.hist.hist.length)
    (hlen : s.hist.hist.length ≤ historyCap)
    (hoob : ∀ p ∈ ps, ¬ posInBounds s.grid p) :
    (updateMultipleCells s ps v).grid = s.grid ∧
    (updateMultipleCells s ps v).hist.hist.length =
      min (s.hist.idx + 2) historyCap ∧
    (updateMultipleCells s ps v).hist.idx =
      (updateMultipleCells s ps v).hist.hist.length - 1 ∧
    canUndo (updateMultipleCells s ps v).hist = true ∧
    currentSnapshot (updateMultipleCells s ps v).hist = s.grid ∧
    (∀ r c, ¬ posInBounds s.grid ⟨r, c⟩ → updateCell s r c v = s) := by
  have hfold := foldl_write_oob v ps s.grid hoob
  have hup : updateMultipleCells s ps v = ⟨s.grid, addHistory s.hist s.grid⟩ := by
    unfold updateMultipleCells updateDataWithHistory
    rw [hfold]
  obtain ⟨_, hlen', hidx', _, _, hsnap⟩ :=
    addHistory_general s.hist s.grid hidx hlen
  rw [hup]
  refine ⟨rfl, hlen', hidx', ?_, hsnap, ?_⟩
  · unfold canUndo
    rw [hidx', hlen']
    have hcap : (2 : Nat) ≤ historyCap := by decide
    simp only [decide_eq_true_eq]
    omega
  · intro r c hrc
    unfold updateCell
    rw [if_neg hrc]

/-- Claim C10 witness: on a fresh 1×1 table, an all-out-of-bounds
`updateMultipleCells` still pushes an entry (stack grows to two, cursor
advances, snapshot equals the old grid), while an out-of-bounds `updateCell`
is a total no-op. -/
theorem claim_C10_witness :
    (updateMultipleCells (initTableData [["a"]]) [⟨5, 5⟩] "x").hist.hist.length
      = min (0 + 2) historyCap ∧
    currentSnapshot
      (updateMultipleCells (initTableData [["a"]]) [⟨5, 5⟩] "x").hist =
      [["a"]] ∧
    updateCell (initTableData [["a"]]) 7 0 "x" = initTableData [["a"]] := by
  have h := claim_C10 (initTableData [["a"]]) [⟨5, 5⟩] "x"
    (by decide) (by decide) (by decide)
  exact ⟨h.2.1, h.2.2.2.2.1, h.2.2.2.2.2 7 0 (by decide)⟩

theorem lastN_append_lastN {α} (n : Nat) (x l : List α) :
    lastN n (lastN n x ++ l) = lastN n (x ++ l) := by
  unfold lastN
  rcases le_or_lt n x.length with hn | hn
  · have hlen : (x.drop (x.length - n)).length = n := by
      rw [List.length_drop]
      omega
    rw [List.length_append, hlen, List.length_append,
      List.drop_append_eq_append_drop, List.drop_append_eq_append_drop,
      List.drop_drop, hlen]
    have e1 : x.length - n + (n + l.length - n) = x.length + l.length - n := by
      omega
    have e2 : n + l.length - n - n = x.length + l.length - n - x.length := by
      omega
    rw [e1, e2]
  · have h0 : x.length - n = 0 := by omega
    rw [h0, List.drop_zero]

/-- Pushing snapshots in sequence from a top-of-stack state keeps the stack
equal to the last `historyCap` entries of everything ever pushed. -/
theorem pushAll_spec :
    ∀ (l : List Grid) (s : HistState), s.hist ≠ [] →
      s.idx = s.hist.length - 1 → s.hist.length ≤ historyCap →
      (l.foldl addHistory s).hist = lastN historyCap (s.hist ++ l) ∧
      (l.foldl addHistory s).hist ≠ [] ∧
      (l.foldl addHistory s).idx = (l.foldl addHistory s).hist.length - 1 ∧
      (l.foldl addHistory s).hist.length ≤ historyCap := by
  intro l
  induction l with
  | nil =>
    intro s h1 h2 h3
    refine ⟨?_, h1, h2, h3⟩
    simp only [List.foldl_nil]
    unfold lastN
    rw [List.append_nil]
    have h0 : s.hist.length - historyCap = 0 := by omega
    rw [h0, List.drop_zero]
  | cons g t ih =>
    intro s h1 h2 h3
    have hidx : s.idx < s.hist.length := by
      have : 0 < s.hist.length := List.length_pos.mpr h1
      omega
    obtain ⟨ha, _, hc, hd, he, _⟩ := addHistory_general s g hidx h3
    have htake : s.hist.take (s.idx + 1) = s.hist := by
      apply List.take_of_length_le
      omega
    rw [htake] at ha
    obtain ⟨ia, ib, ic, id2⟩ := ih (addHistory s g) hd hc he
    rw [List.foldl_cons]
    refine ⟨?_, ib, ic, id2⟩
    rw [ia, ha, lastN_append_lastN, List.append_assoc, List.singleton_append]

theorem undoN_state (k : Nat) :
    ∀ s : HistState, undoN k s = ⟨s.hist, s.idx - k⟩ := by
  induction k with
  | zero =>
    intro s
    cases s
    rfl
  | succ n ih =>
    intro s
    rw [undoN, ih]
    unfold undoStep
    split
    · rename_i h
      cases s
      simp_all
    · rename_i h
      cases s
      simp only [HistState.mk.injEq, true_and]
      omega

/-- Claim C5: `addHistory` truncates forward entries before appending and
evicts the oldest entry over the fixed cap of 50; after at least 50 pushes
`canUndo` still holds, the stack holds exactly the last 50 snapshots of
seed-then-pushes, and 50 undos bottom out at the earliest retained pushed
snapshot — not the absolute initial seed. -/
theorem claim_C5 (g0 : Grid) (snaps : List Grid)
    (hlen : historyCap ≤ snaps.length) :
    (∀ (s : HistState) (g : Grid), s.idx < s.hist.length →
      s.hist.length ≤ historyCap →
      (addHistory s g).hist =
        lastN historyCap (s.hist.take (s.idx + 1) ++ [g]) ∧
      (addHistory s g).hist.length = min (s.idx + 2) historyCap) ∧
    (pushAll g0 snaps).hist =
      (g0 :: snaps).drop (snaps.length + 1 - historyCap) ∧
    canUndo (pushAll g0 snaps) = true ∧
    (undoN historyCap (pushAll g0 snaps)).idx = 0 ∧
    currentSnapshot (undoN historyCap (pushAll g0 snaps)) =
      snaps.getD (snaps.length - historyCap) [] ∧
    (g0 ∉ snaps →
      currentSnapshot (undoN historyCap (pushAll g0 snaps)) ≠ g0) := by
  have hstep : ∀ (s : HistState) (g : Grid), s.idx < s.hist.length →
      s.hist.length ≤ historyCap →
      (addHistory s g).hist =
        lastN historyCap (s.hist.take (s.idx + 1) ++ [g]) ∧
      (addHistory s g).hist.length = min (s.idx + 2) historyCap := by
    intro s g h1 h2
    obtain ⟨ha, hb, _⟩ := addHistory_general s g h1 h2
    exact ⟨ha, hb⟩
  obtain ⟨ph, pne, pidx, pcap⟩ := pushAll_spec snaps (initHistory g0)
    (by simp [initHistory]) (by simp [initHistory])
    (by simp [initHistory, historyCap])
  have hfin : pushAll g0 snaps = snaps.foldl addHistory (initHistory g0) := rfl
  have hh : (pushAll g0 snaps).hist =
      (g0 :: snaps).drop (snaps.length + 1 - historyCap) := by
    rw [hfin, ph]
    unfold lastN initHistory
    simp only [List.singleton_append, List.length_cons]
  have hhl : (pushAll g0 snaps).hist.length =
      historyCap := by
    rw [hh, List.length_drop, List.length_cons]
    omega
  have hidx49 : (pushAll g0 snaps).idx = historyCap - 1 := by
    rw [hfin, pidx, ← hfin, hhl]
  have hzero : (undoN historyCap (pushAll g0 snaps)).idx = 0 := by
    rw [undoN_state]
    dsimp only
    rw [hidx49]
    omega
  have hread : currentSnapshot (undoN historyCap (pushAll g0 snaps)) =
      snaps.getD (snaps.length - historyCap) [] := by
    unfold currentSnapshot
    rw [undoN_state]
    dsimp only
    rw [hidx49]
    have h0 : historyCap - 1 - historyCap = 0 := by omega
    rw [h0, hh, getD_drop_zero]
    have hsum : snaps.length + 1 - historyCap =
        (snaps.length - historyCap) + 1 := by omega
    rw [hsum, List.getD_cons_succ]
  refine ⟨hstep, hh, ?_, hzero, hread, ?_⟩
  · unfold canUndo
    rw [hidx49]
    simp only [decide_eq_true_eq, historyCap]
    omega
  · intro hg0
    rw [hread]
    have hm : snaps.length - historyCap < snaps.length := by
      have : 0 < historyCap := by decide
      omega
    rw [getD_eq_getElem_of_lt _ _ _ hm]
    intro heq
    exact hg0 (heq ▸ List.getElem_mem hm)

/-- Claim C5 witness: pushing 50 snapshots onto the seeded history leaves
`canUndo` true and the stack truncated. -/
theorem claim_C5_witness :
    canUndo (pushAll [["s"]] (List.replicate 50 ([["x"]] : Grid))) = true :=
  (claim_C5 [["s"]] (List.replicate 50 [["x"]]) (by simp [historyCap])).2.2.1

theorem foldl_max_init_le (f : CellUpdate → Int) :
    ∀ (l : List CellUpdate) (m : Int),
      m ≤ l.foldl (fun acc u => max acc (f u)) m := by
  intro l
  induction l with
  | nil => intro m; exact le_refl m
  | cons a t ih =>
    intro m
    rw [List.foldl_cons]
    exact le_trans (le_max_left _ _) (ih _)

theorem neg_one_le_maxRowRef (us : List CellUpdate) :
    (-1 : Int) ≤ maxRowRef us :=
  foldl_max_init_le _ us (-1)

theorem neg_one_le_maxColRef (us : List CellUpdate) :
    (-1 : Int) ≤ maxColRef us :=
  foldl_max_init_le _ us (-1)

theorem growRowsTo_length (g : Grid) (m : Int) (hm : -1 ≤ m) :
    (growRowsTo g m).length = max g.length (m + 1).toNat := by
  unfold growRowsTo
  split
  · rename_i h
    rw [List.length_append, List.length_replicate]
    omega
  · rename_i h
    simp only [not_le] at h
    omega

theorem growRowsTo_rows (g : Grid) (m : Int)
    (hrect : ∀ row ∈ g, row.length = gridCols g) :
    ∀ row ∈ growRowsTo g m, row.length = gridCols g := by
  unfold growRowsTo
  split
  · intro row hrow
    rcases List.mem_append.mp hrow with h | h
    · exact hrect row h
    · rw [List.eq_of_mem_replicate h, List.length_replicate]
  · exact hrect

theorem gridCols_growRowsTo (g : Grid) (m : Int) :
    gridCols (growRowsTo g m) = gridCols g := by
  unfold growRowsTo
  split
  · cases g with
    | nil =>
      simp only [List.nil_append, gridCols]
      cases h : ((m : Int) - ([] : Grid).length + 1).toNat with
      | zero => simp
      | succ k => simp [List.replicate_succ]
    | cons r t => simp [gridCols]
  · rfl

theorem growColsTo_length (g : Grid) (m : Int) :
    (growColsTo g m).length = g.length := by
  unfold growColsTo
  split <;> simp

theorem growColsTo_rows (g : Grid) (m : Int) (hm : -1 ≤ m)
    (hrect : ∀ row ∈ g, row.length = gridCols g) :
    ∀ row ∈ growColsTo g m, row.length = max (gridCols g) (m + 1).toNat := by
  unfold growColsTo
  split
  · rename_i h
    intro row hrow
    rcases List.mem_map.mp hrow with ⟨r0, hr0, rfl⟩
    rw [List.length_append, List.length_replicate, hrect r0 hr0]
    omega
  · rename_i h
    simp only [not_le] at h
    intro row hrow
    rw [hrect row hrow]
    omega

theorem applyUpdates_length :
    ∀ (us : List CellUpdate) (g : Grid),
      (us.foldl applyUpdate g).length = g.length := by
  intro us
  induction us with
  | nil => intro g; rfl
  | cons u t ih =>
    intro g
    rw [List.foldl_cons, ih]
    unfold applyUpdate writeCell
    split <;> simp

theorem applyUpdates_rows (w : Nat) :
    ∀ (us : List CellUpdate) (g : Grid),
      (∀ row ∈ g, row.length = w) →
      ∀ row ∈ us.foldl applyUpdate g, row.length = w := by
  intro us
  induction us with
  | nil => intro g h; exact h
  | cons u t ih =>
    intro g h
    rw [List.foldl_cons]
    apply ih
    intro row hrow
    unfold applyUpdate writeCell at hrow
    split at hrow
    · rename_i hb
      rcases List.mem_or_eq_of_mem_set hrow with h2 | h2
      · exact h row h2
      · rw [h2, List.length_set,
          getD_eq_getElem_of_lt _ _ _ hb.1]
        exact h _ (List.getElem_mem hb.1)
    · exact h row hrow

/-- Claim C4: when a batch of distinct-value updates references a row or
column past the current bounds, `updateMultipleCellsWithDifferentValues`
grows the grid by exactly the deficit — rows then columns — before applying
any write, and the result is rectangular with exactly the grown
dimensions. -/
theorem claim_C4 (g : Grid) (us : List CellUpdate) (hg : g ≠ [])
    (hrect : ∀ row ∈ g, row.length = gridCols g)
    (hex : (g.length : Int) ≤ maxRowRef us ∨
      (gridCols g : Int) ≤ maxColRef us) :
    updateMultipleCellsWithDifferentValues g us =
      us.foldl applyUpdate
        (growColsTo (growRowsTo g (maxRowRef us)) (maxColRef us)) ∧
    (updateMultipleCellsWithDifferentValues g us).length =
      max g.length (maxRowRef us + 1).toNat ∧
    (growColsTo (growRowsTo g (maxRowRef us)) (maxColRef us)).length =
      (updateMultipleCellsWithDifferentValues g us).length ∧
    (∀ row ∈ updateMultipleCellsWithDifferentValues g us,
      row.length = max (gridCols g) (maxColRef us + 1).toNat) ∧
    (∀ row ∈ growColsTo (growRowsTo g (maxRowRef us)) (maxColRef us),
      row.length = max (gridCols g) (maxColRef us + 1).toNat) := by
  have hmr := neg_one_le_maxRowRef us
  have hmc := neg_one_le_maxColRef us
  have hdef : updateMultipleCellsWithDifferentValues g us =
      us.foldl applyUpdate
        (growColsTo (growRowsTo g (maxRowRef us)) (maxColRef us)) := rfl
  have hlen : (updateMultipleCellsWithDifferentValues g us).length =
      max g.length (maxRowRef us + 1).toNat := by
    rw [hdef, applyUpdates_length, growColsTo_length,
      growRowsTo_length g _ hmr]
  have hrows1 : ∀ row ∈ growRowsTo g (maxRowRef us),
      row.length = gridCols (growRowsTo g (maxRowRef us)) := by
    rw [gridCols_growRowsTo]
    exact growRowsTo_rows g _ hrect
  have hrows2 : ∀ row ∈ growColsTo (growRowsTo g (maxRowRef us))
      (maxColRef us),
      row.length = max (gridCols g) (maxColRef us + 1).toNat := by
    have h2 := growColsTo_rows (growRowsTo g (maxRowRef us))
      (maxColRef us) hmc hrows1
    rw [gridCols_growRowsTo] at h2
    exact h2
  refine ⟨hdef, hlen, ?_, ?_, hrows2⟩
  · rw [hdef, applyUpdates_length]
  · rw [hdef]
    exact applyUpdates_rows _ us _ hrows2

/-- Claim C4 witness: updates referencing row 3 and column 4 of a 2×2 grid
grow it to exactly 4×5 and keep it rectangular. -/
theorem claim_C4_witness :
    (updateMultipleCellsWithDifferentValues [["a", "b"], ["c", "d"]]
      [⟨⟨3, 0⟩, "X"⟩, ⟨⟨0, 4⟩, "Y"⟩]).length =
      max 2 (maxRowRef [⟨⟨3, 0⟩, "X"⟩, ⟨⟨0, 4⟩, "Y"⟩] + 1).toNat :=
  (claim_C4 [["a", "b"], ["c", "d"]] [⟨⟨3, 0⟩, "X"⟩, ⟨⟨0, 4⟩, "Y"⟩]
    (by decide) (by decide) (by decide)).2.1

/-! ## Scanner step lemmas and the round trip -/

theorem scan_out_quote (f : List Char) (r : List (List Char))
    (acc : List (List (List Char))) (rest : List Char) :
    scan false f r acc ('"' :: rest) = scan true f r acc rest := by
  rw [scan.eq_def]
  simp

theorem scan_out_tab (f : List Char) (r : List (List Char))
    (acc : List (List (List Char))) (rest : List Char) :
    scan false f r acc ('\t' :: rest) = scan false [] (r ++ [f]) acc rest := by
  rw [scan.eq_def]
  simp

theorem scan_out_nl (f : List Char) (r : List (List Char))
    (acc : List (List (List Char))) (rest : List Char) :
    scan false f r acc ('\n' :: rest) =
      scan false [] [] (acc ++ [r ++ [f]]) rest := by
  rw [scan.eq_def]
  simp

theorem scan_out_lit (f : List Char) (r : List (List Char))
    (acc : List (List (List Char))) (rest : List Char) (c : Char)
    (h3 : c ≠ '"') (h2 : c ≠ '\t') (h1 : c ≠ '\n') :
    scan false f r acc (c :: rest) = scan false (f ++ [c]) r acc rest := by
  rw [scan.eq_def]
  simp [h1, h2, h3]

theorem scan_inq_dquote (f : List Char) (r : List (List Char))
    (acc : List (List (List Char))) (rest : List Char) :
    scan true f r acc ('"' :: '"' :: rest) =
      scan true (f ++ ['"']) r acc rest := by
  rw [scan]
  simp

theorem scan_inq_close (f : List Char) (r : List (List Char))
    (acc : List (List (List Char))) (rest : List Char)
    (h : rest.head? ≠ some '"') :
    scan true f r acc ('"' :: rest) = scan false f r acc rest := by
  cases rest with
  | nil =>
    conv_lhs => rw [scan]
    simp
  | cons d rest2 =>
    have hd : d ≠ '"' := by simpa using h
    rw [scan]
    simp only [if_pos rfl]
    split
    · rename_i heq
      simp_all
    · rename_i heq
      simp_all
    · exact hd

theorem scan_inq_lit (f : List Char) (r : List (List Char))
    (acc : List (List (List Char))) (rest : List Char) (c : Char)
    (h : c ≠ '"') :
    scan true f r acc (c :: rest) = scan true (f ++ [c]) r acc rest := by
  rw [scan.eq_def]
  simp [h]

theorem scan_through_plain :
    ∀ (cs f : List Char) (r : List (List Char))
      (acc : List (List (List Char))) (rest : List Char),
      (∀ c ∈ cs, isSpecial c = false) →
      scan false f r acc (cs ++ rest) = scan false (f ++ cs) r acc rest := by
  intro cs
  induction cs with
  | nil =>
    intro f r acc rest _
    simp
  | cons c t ih =>
    intro f r acc rest h
    have hc := h c (List.mem_cons_self c t)
    have h1 : c ≠ '\n' := by
      intro he
      rw [he] at hc
      simp [isSpecial] at hc
    have h2 : c ≠ '\t' := by
      intro he
      rw [he] at hc
      simp [isSpecial] at hc
    have h3 : c ≠ '"' := by
      intro he
      rw [he] at hc
      simp [isSpecial] at hc
    rw [List.cons_append, scan_out_lit _ _ _ _ _ h3 h2 h1]
    rw [ih (f ++ [c]) r acc rest (fun x hx => h x (List.mem_cons_of_mem c hx))]
    simp

theorem scan_through_quoted :
    ∀ (cs f : List Char) (r : List (List Char))
      (acc : List (List (List Char))) (rest : List Char),
      rest.head? ≠ some '"' →
      scan true f r acc (doubleQuotes cs ++ ('"' :: rest)) =
        scan false (f ++ cs) r acc rest := by
  intro cs
  induction cs with
  | nil =>
    intro f r acc rest h
    simp only [doubleQuotes, List.flatMap_nil, List.nil_append]
    rw [scan_inq_close _ _ _ _ h]
    simp
  | cons c t ih =>
    intro f r acc rest h
    by_cases hc : c = '"'
    · subst hc
      have hd : doubleQuotes ('"' :: t) = '"' :: '"' :: doubleQuotes t := by
        simp [doubleQuotes]
      rw [hd, List.cons_append, List.cons_append, scan_inq_dquote]
      rw [ih (f ++ ['"']) r acc rest h]
      simp
    · have hd : doubleQuotes (c :: t) = c :: doubleQuotes t := by
        simp [doubleQuotes, hc]
      rw [hd, List.cons_append, scan_inq_lit _ _ _ _ _ hc]
      rw [ih (f ++ [c]) r acc rest h]
      simp

theorem scan_through_field (v : List Char) (r : List (List Char))
    (acc : List (List (List Char))) (rest : List Char)
    (h : rest.head? ≠ some '"') :
    scan false [] r acc (formatCellValueForExcel v ++ rest) =
      scan false (cleanValue v) r acc rest := by
  by_cases hq : needsQuoting (cleanValue v) = true
  · have hfmt : formatCellValueForExcel v =
        '"' :: (doubleQuotes (cleanValue v) ++ ['"']) := by
      simp [formatCellValueForExcel, hq]
    rw [hfmt, List.cons_append, scan_out_quote, List.append_assoc,
      List.singleton_append]
    rw [scan_through_quoted (cleanValue v) [] r acc rest h]
    simp
  · have hq' : needsQuoting (cleanValue v) = false := by
      cases hx : needsQuoting (cleanValue v)
      · rfl
      · exact absurd hx hq
    have hfmt : formatCellValueForExcel v = cleanValue v := by
      simp [formatCellValueForExcel, hq']
    have hall : ∀ c ∈ cleanValue v, isSpecial c = false := by
      rw [needsQuoting] at hq'
      intro c hcmem
      have := List.any_eq_false.mp hq' c hcmem
      simpa using this
    rw [hfmt, scan_through_plain (cleanValue v) [] r acc rest hall]
    simp

theorem scan_through_row :
    ∀ (vs : List (List Char)), vs ≠ [] →
      ∀ (r : List (List Char)) (acc : List (List (List Char)))
        (rest : List Char),
      scan false [] r acc
        ((joinSep ['\t'] (vs.map formatCellValueForExcel) ++ ['\n']) ++ rest)
        = scan false [] [] (acc ++ [r ++ vs.map cleanValue]) rest := by
  intro vs
  induction vs with
  | nil => intro h; exact absurd rfl h
  | cons v t ih =>
    intro _ r acc rest
    cases t with
    | nil =>
      have hshape :
          (joinSep ['\t'] ([v].map formatCellValueForExcel) ++ ['\n']) ++ rest
            = formatCellValueForExcel v ++ ('\n' :: rest) := by
        simp [joinSep]
      rw [hshape]
      rw [scan_through_field v r acc ('\n' :: rest) (by simp)]
      rw [scan_out_nl]
      simp
    | cons v2 t2 =>
      have hshape :
          (joinSep ['\t'] ((v :: v2 :: t2).map formatCellValueForExcel) ++
            ['\n']) ++ rest
            = formatCellValueForExcel v ++
              ('\t' :: ((joinSep ['\t']
                ((v2 :: t2).map formatCellValueForExcel) ++ ['\n']) ++ rest)) := by
        simp [joinSep]
      rw [hshape]
      rw [scan_through_field v r acc _ (by simp)]
      rw [scan_out_tab]
      rw [ih (by simp) (r ++ [cleanValue v]) acc rest]
      simp

theorem scan_through_grid :
    ∀ (g : List (List (List Char))), (∀ row ∈ g, row ≠ []) →
      ∀ acc : List (List (List Char)),
      scan false [] [] acc (encodeGrid g) =
        acc ++ g.map (List.map cleanValue) := by
  intro g
  induction g with
  | nil =>
    intro _ acc
    rw [encodeGrid]
    simp [scan]
  | cons row t ih =>
    intro h acc
    rw [encodeGrid_cons, encodeRow]
    rw [scan_through_row row (h row (List.mem_cons_self row t)) [] acc
      (encodeGrid t)]
    rw [ih (fun r hr => h r (List.mem_cons_of_mem row hr))]
    simp

/-- Decoding the encoding of any grid with nonempty rows yields the grid of
cleaned values. -/
theorem decode_encodeGrid (g : List (List (List Char)))
    (h : ∀ row ∈ g, row ≠ []) :
    decodeChars (encodeGrid g) = g.map (List.map cleanValue) := by
  unfold decodeChars
  rw [scan_through_grid g h []]
  simp

theorem normChars_of_no_cr :
    ∀ cs : List Char, '\r' ∉ cs → normChars cs = cs
  | [], _ => rfl
  | [c], h => by
    have hc : c ≠ '\r' := by
      intro he
      exact h (by simp [he])
    simp [normChars, hc]
  | c :: d :: rest, h => by
    have hc : c ≠ '\r' := by
      intro he
      exact h (by simp [he])
    have hrest : '\r' ∉ d :: rest := fun hm => h (List.mem_cons_of_mem _ hm)
    rw [normChars, if_neg hc, normChars_of_no_cr (d :: rest) hrest]

theorem dropWhile_dropWhile {α} (p : α → Bool) :
    ∀ l : List α,
      List.dropWhile p (List.dropWhile p l) = List.dropWhile p l := by
  intro l
  induction l with
  | nil => rfl
  | cons a t ih =>
    rw [List.dropWhile_cons]
    split
    · exact ih
    · rename_i hp
      rw [List.dropWhile_cons, if_neg hp]

theorem stripTrailingLF_idem (l : List Char) :
    stripTrailingLF (stripTrailingLF l) = stripTrailingLF l := by
  unfold stripTrailingLF
  rw [List.reverse_reverse, dropWhile_dropWhile]

theorem cleanValue_idem (v : List Char) :
    cleanValue (cleanValue v) = cleanValue v := by
  unfold cleanValue
  rw [normChars_of_no_cr (stripTrailingLF (normChars v))
    (fun h => normChars_no_cr v (mem_stripTrailingLF h))]
  exact stripTrailingLF_idem _

theorem formatCellValueForExcel_clean (v : List Char) :
    formatCellValueForExcel (cleanValue v) = formatCellValueForExcel v := by
  simp only [formatCellValueForExcel, cleanValue_idem]

theorem encodeRow_map_clean (row : List (List Char)) :
    encodeRow (row.map cleanValue) = encodeRow row := by
  unfold encodeRow
  rw [List.map_map,
    funext formatCellValueForExcel_clean (f := formatCellValueForExcel ∘ cleanValue)]

theorem encodeGrid_map_clean (g : List (List (List Char))) :
    encodeGrid (g.map (List.map cleanValue)) = encodeGrid g := by
  unfold encodeGrid
  rw [List.map_map, funext encodeRow_map_clean
    (f := encodeRow ∘ List.map cleanValue)]

/-- Claim C7: for any text produced by the clipboard encoder from a
rectangular range (every row nonempty), decoding and re-encoding reproduces
the text exactly. -/
theorem claim_C7 (g : List (List (List Char))) (h : ∀ row ∈ g, row ≠ []) :
    encodeGrid (decodeChars (encodeGrid g)) = encodeGrid g := by
  rw [decode_encodeGrid g h, encodeGrid_map_clean]

/-- Claim C7 witness: the round trip at a 2×2 grid containing quotes, tabs,
newlines and an empty cell. -/
theorem claim_C7_witness :
    encodeGrid (decodeChars (encodeGrid
      [[['A', '"'], ['B', '\t', 'C']], [[], ['D', '\n', 'E']]])) =
    encodeGrid [[['A', '"'], ['B', '\t', 'C']], [[], ['D', '\n', 'E']]] :=
  claim_C7 [[['A', '"'], ['B', '\t', 'C']], [[], ['D', '\n', 'E']]]
    (by decide)

end ProtoTable
